import Mathlib

/-!
Verification of the subtitle-cleaning and orchestration logic of
`main.py` (YouTube transcript summarizer).

Strings are modelled as `List Char`.  Python's `str.strip()` removes
Unicode whitespace; inputs here are modelled over the ASCII whitespace
characters (space, tab, newline, carriage return, vertical tab, form
feed).  The regex character class `\d` is modelled as an ASCII digit.
-/

open List

-- ### Configuration constants (main.py lines 9-12)

def PROMPT : String :=
  "Please provide a detailed summary of the following YouTube video transcript:"

def OLLAMA_MODEL : String := "gemma3:12b"

def TRANSCRIPT_FILENAME : String := "transcript.srt"

def DELETE_TRANSCRIPT_AFTER_SUMMARY : Bool := false

-- ### Python `str.strip()` model

/-- Whitespace characters removed by Python `str.strip()` (ASCII fragment). -/
def isSpace (c : Char) : Bool :=
  c = ' ' || c = '\t' || c = '\n' || c = '\r' || c = '\x0b' || c = '\x0c'

/-- Remove leading whitespace. -/
def stripLeft (l : List Char) : List Char := l.dropWhile isSpace

/-- Remove trailing whitespace. -/
def stripRight : List Char → List Char
  | [] => []
  | c :: t =>
    match stripRight t with
    | [] => if isSpace c then [] else [c]
    | r => c :: r

/-- Model of Python `str.strip()`: remove whitespace at both ends. -/
def pyStrip (l : List Char) : List Char := stripRight (stripLeft l)

-- ### Model of `re.sub(r"<[^>]*>", '', line)` (main.py line 58, 72)
--
-- The regex engine scans left to right; a match starts at a `<` that is
-- followed (possibly after other characters, none of them `>`) by a `>`,
-- and extends exactly to that first `>`.  All such non-overlapping
-- matches are deleted.

/-- Remainder of the list after the first `>` character, if any. -/
def findGt : List Char → Option (List Char)
  | [] => none
  | c :: t => if c = '>' then some t else findGt t

/-- Fuel-driven scanner for tag removal.  On `<`, if a `>` occurs later,
the whole `<...>` region (up to the first `>`) is dropped; otherwise the
`<` is kept literally.  Fuel bounds the number of steps; each step
consumes at least one character, so `l.length` fuel always suffices. -/
def tagStep : Nat → List Char → List Char
  | 0, l => l
  | _ + 1, [] => []
  | f + 1, c :: t =>
    if c = '<' then
      match findGt t with
      | some t2 => tagStep f t2
      | none => c :: tagStep f t
    else c :: tagStep f t

/-- Model of `tag_pattern.sub('', line)`: delete every `<[^>]*>` match. -/
def removeTags (l : List Char) : List Char := tagStep l.length l

-- ### Model of the timestamp and sequence-number regexes (lines 56-57)

/-- Consume one literal character. -/
def lit (c : Char) : List Char → Option (List Char)
  | x :: r => if x = c then some r else none
  | [] => none

/-- Consume one ASCII digit (model of `\d`). -/
def digit1 : List Char → Option (List Char)
  | x :: r => if x.isDigit then some r else none
  | [] => none

/-- Consume `\d\d:\d\d:\d\d,\d\d\d` (one time of the timestamp range). -/
def matchTime (l : List Char) : Option (List Char) :=
  (digit1 l).bind digit1 |>.bind (lit ':') |>.bind digit1 |>.bind digit1
    |>.bind (lit ':') |>.bind digit1 |>.bind digit1 |>.bind (lit ',')
    |>.bind digit1 |>.bind digit1 |>.bind digit1

/-- Consume the literal arrow separator `" --> "`. -/
def arrowTok (l : List Char) : Option (List Char) :=
  (lit ' ' l).bind (lit '-') |>.bind (lit '-') |>.bind (lit '>') |>.bind (lit ' ')

/-- Model of `timestamp_pattern.match(line)` with pattern
`^\d\d:\d\d:\d\d,\d\d\d --> \d\d:\d\d:\d\d,\d\d\d$`: the whole line must
be a timestamp range. -/
def isTimestamp (l : List Char) : Bool :=
  decide ((((matchTime l).bind arrowTok).bind matchTime) = some ([] : List Char))

/-- Model of `seq_num_pattern.match(line)` with pattern `^\d+$`. -/
def isSeqNum (l : List Char) : Bool :=
  !l.isEmpty && l.all Char.isDigit

-- ### The per-line body of the cleaning loop (main.py lines 64-76)

/-- One iteration of the cleaning loop: strip the line; drop it if empty,
a timestamp range, or a bare sequence number; otherwise delete markup
tags, re-strip, and keep the result unless it became empty. -/
def processLine (raw : List Char) : Option (List Char) :=
  let line := pyStrip raw
  if line = [] then none
  else if isTimestamp line || isSeqNum line then none
  else
    let cleaned := pyStrip (removeTags line)
    if cleaned = [] then none else some cleaned

-- ### File-content model: splitting into lines and joining back
--
-- `open(..., 'r')` uses universal newlines: `\r\n` and `\r` read as `\n`;
-- `readlines()` then splits on `\n`.  Splitting on `\n` after newline
-- normalisation yields the `readlines()` lines up to their trailing
-- newline characters (and a final empty piece when the file ends in a
-- newline); both differences are erased by the immediate `strip()`, and
-- a final empty piece is dropped as an empty line.

/-- Universal-newline normalisation: `\r\n` and lone `\r` become `\n`. -/
def normNl : List Char → List Char
  | [] => []
  | [c] => if c = '\r' then ['\n'] else [c]
  | c :: d :: t =>
    if c = '\r' then
      if d = '\n' then '\n' :: normNl t else '\n' :: normNl (d :: t)
    else c :: normNl (d :: t)

/-- Prepend a character to the first piece of a split. -/
def consHead (c : Char) : List (List Char) → List (List Char)
  | [] => [[c]]
  | s :: ss => (c :: s) :: ss

/-- Split on `\n` (the separators are consumed). -/
def splitNl : List Char → List (List Char)
  | [] => [[]]
  | c :: t => if c = '\n' then [] :: splitNl t else consHead c (splitNl t)

/-- The lines of a file's content, as the cleaning loop sees them. -/
def modelLines (content : List Char) : List (List Char) :=
  splitNl (normNl content)

/-- Model of `"\n".join(cleaned_lines)`. -/
def joinLines : List (List Char) → List Char
  | [] => []
  | [l] => l
  | l :: rest => l ++ '\n' :: joinLines rest

/-- The content written back: lines joined by `\n`, plus a trailing `\n`
(main.py line 84). -/
def joinNl (ls : List (List Char)) : List Char := joinLines ls ++ ['\n']

/-- The list `cleaned_lines` built by the loop. -/
def cleanedLines (content : List Char) : List (List Char) :=
  (modelLines content).filterMap processLine

/-- Model of `clean_srt_file` (main.py lines 51-87) on the file's
content: `some out` means the function returns `True` after overwriting
the file with `out`; `none` means it returns `False` without writing
(empty-after-cleaning). -/
def clean_srt (content : List Char) : Option (List Char) :=
  let cleaned := cleanedLines content
  if cleaned = [] then none else some (joinNl cleaned)

/-- `clean_srt_file` as (returned flag, file content after the call). -/
def clean_srt_file (content : List Char) : Bool × List Char :=
  match clean_srt content with
  | none => (false, content)
  | some out => (true, out)

-- ### Declarative characterisations used by the claims

/-- A line that consists solely of markup tags: a concatenation of
segments `<...>` whose interior contains no `>`. -/
inductive TagsOnly : List Char → Prop
  | nil : TagsOnly []
  | cons (inner rest : List Char) : '>' ∉ inner → TagsOnly rest →
      TagsOnly ('<' :: inner ++ '>' :: rest)

/-- Spec wording for one time of the timestamp range: two-digit
hours/minutes/seconds, three-digit milliseconds, `:`/`,` separators. -/
def timeSpec (t : List Char) : Prop :=
  ∃ hh mm ss ms : List Char,
    t = hh ++ ':' :: mm ++ ':' :: ss ++ ',' :: ms ∧
    hh.length = 2 ∧ mm.length = 2 ∧ ss.length = 2 ∧ ms.length = 3 ∧
    (∀ c : Char, (c ∈ hh ∨ c ∈ mm ∨ c ∈ ss ∨ c ∈ ms) → c.isDigit = true)

/-- Spec wording for a full-line timestamp range: `HH:MM:SS,mmm`, the
exact literal `" --> "` arrow, then `HH:MM:SS,mmm`, covering the whole
line. -/
def timestampSpec (l : List Char) : Prop :=
  ∃ t1 t2 : List Char,
    timeSpec t1 ∧ timeSpec t2 ∧ l = t1 ++ ' ' :: '-' :: '-' :: '>' :: ' ' :: t2

-- ### Orchestration model (subprocess results as explicit data)

/-- Captured result of a completed subprocess (`subprocess.run`). -/
structure ProcResult where
  returncode : Int
  stdout : String
  stderr : String

/-- Outcome of attempting to launch a subprocess. -/
inductive CmdOutcome where
  | notFound (cmd : String)
  | completed (res : ProcResult)

/-- Model of `run_command` (main.py lines 26-49): `ok` when the process
exits 0, otherwise an error message; a non-zero exit produces a
`CommandError` whose text embeds the command line, captured stderr and
captured stdout. -/
def run_command (commandList : List String) (stepName : String)
    (outcome : CmdOutcome) : Except String ProcResult :=
  match outcome with
  | .notFound c => .error ("Command not found: " ++ c ++ ". Is it installed and in PATH?")
  | .completed r =>
    if r.returncode = 0 then .ok r
    else
      .error ("Error during " ++ stepName ++ ": Command exited with status "
        ++ toString r.returncode ++ "\nCommand: "
        ++ String.intercalate " " commandList
        ++ "\nSTDERR:\n" ++ r.stderr ++ "\nSTDOUT:\n" ++ r.stdout)

/-- Model of `download_subtitles` (main.py lines 100-140) after the
yt-dlp invocation.  `dl` is the yt-dlp outcome as seen through
`run_command` (a `CommandError` is caught and turns into `False`).
`file` is the state of `TRANSCRIPT_FILENAME` after the rename
normalisation: `none` if absent, `some n` if present with size `n`.
`removeOk` says whether `os.remove` would succeed; its failure is
swallowed (`except OSError: pass`).  Result: (returned flag, final file
state).  The Python function returns; it never propagates an
exception from these paths. -/
def download_subtitles (dl : Except String ProcResult) (file : Option Nat)
    (removeOk : Bool) : Bool × Option Nat :=
  match dl with
  | .error _ => (false, file)
  | .ok _ =>
    match file with
    | none => (false, none)
    | some 0 => (false, if removeOk then none else some 0)
    | some n => (true, some n)

/-- Model of `summarize_transcript` (main.py lines 143-184): `content`
is what was read from the transcript file; blank content fails, and a
`CommandError` from the ollama invocation is caught and fails. -/
def summarize_transcript (content : String) (outcome : CmdOutcome) : Bool :=
  if content.trim = "" then false
  else
    match run_command ["ollama", "run", OLLAMA_MODEL, PROMPT] "Summarization" outcome with
    | .ok _ => true
    | .error _ => false

/-- Model of `stop_ollama_model` (main.py lines 187-200): a
`CommandError` is caught, logged as a warning, and turns into `False`. -/
def stop_ollama_model (outcome : CmdOutcome) : Bool :=
  match run_command ["ollama", "stop", OLLAMA_MODEL]
      ("Stopping ollama Model (" ++ OLLAMA_MODEL ++ ")") outcome with
  | .ok _ => true
  | .error _ => false

/-- Model of `cleanup` (main.py lines 203-210): returns whether the
transcript file was actually removed; an `OSError` is caught and only
logged. -/
def cleanup (deleteFlag removeOk : Bool) : Bool := deleteFlag && removeOk

/-- Exit code of `main` (main.py lines 232-246) as a function of the
stage results: any failing stage among download/clean/summarize exits 1;
afterwards `stop_ollama_model` and `cleanup` run but their results are
ignored, and the process finishes with exit code 0. -/
def main_exit_full (dl clean sum : Bool) (stopOutcome : CmdOutcome)
    (deleteFlag removeOk : Bool) : Nat :=
  if dl = false then 1
  else if clean = false then 1
  else if sum = false then 1
  else
    let _ := stop_ollama_model stopOutcome
    let _ := cleanup deleteFlag removeOk
    0

-- ### Lemmas about the strip model

theorem stripLeft_cons_space {c : Char} (t : List Char) (h : isSpace c = true) :
    stripLeft (c :: t) = stripLeft t := by
  simp [stripLeft, List.dropWhile, h]

theorem stripLeft_cons_not_space {c : Char} (t : List Char) (h : isSpace c = false) :
    stripLeft (c :: t) = c :: t := by
  simp [stripLeft, List.dropWhile, h]

theorem stripLeft_idem (l : List Char) : stripLeft (stripLeft l) = stripLeft l := by
  induction l with
  | nil => rfl
  | cons c t ih =>
    cases h : isSpace c with
    | true => rw [stripLeft_cons_space t h, ih]
    | false => rw [stripLeft_cons_not_space t h, stripLeft_cons_not_space t h]

theorem stripLeft_length_le (l : List Char) : (stripLeft l).length ≤ l.length := by
  induction l with
  | nil => simp [stripLeft]
  | cons c t ih =>
    cases h : isSpace c with
    | true =>
      rw [stripLeft_cons_space t h]
      exact Nat.le_succ_of_le ih
    | false => rw [stripLeft_cons_not_space t h]

theorem stripLeft_eq_self_head {c : Char} {t : List Char}
    (h : stripLeft (c :: t) = c :: t) : isSpace c = false := by
  cases hc : isSpace c with
  | true =>
    exfalso
    rw [stripLeft_cons_space t hc] at h
    have := congrArg List.length h
    have hle := stripLeft_length_le t
    simp at this
    omega
  | false => rfl

theorem stripRight_cons (c : Char) (t : List Char) :
    stripRight (c :: t) =
      match stripRight t with
      | [] => if isSpace c then [] else [c]
      | r => c :: r := rfl

theorem stripRight_sublist (l : List Char) : stripRight l <+ l := by
  induction l with
  | nil => simp [stripRight]
  | cons c t ih =>
    rw [stripRight_cons]
    cases h : stripRight t with
    | nil =>
      cases hc : isSpace c with
      | true => simp [hc]
      | false =>
        rw [if_neg (by simp [hc])]
        exact (List.nil_sublist t).cons₂ c
    | cons y ys =>
      rw [h] at ih
      exact ih.cons₂ c

theorem stripRight_idem (l : List Char) : stripRight (stripRight l) = stripRight l := by
  induction l with
  | nil => rfl
  | cons c t ih =>
    rw [stripRight_cons]
    cases h : stripRight t with
    | nil =>
      cases hc : isSpace c with
      | true => simp [hc, stripRight]
      | false => simp [hc, stripRight]
    | cons y ys =>
      rw [h] at ih
      simp only []
      rw [stripRight_cons, ih]

theorem stripRight_getLast {l : List Char} {c : Char}
    (h : (stripRight l).getLast? = some c) : isSpace c = false := by
  induction l with
  | nil => simp [stripRight] at h
  | cons a t ih =>
    rw [stripRight_cons] at h
    cases ht : stripRight t with
    | nil =>
      rw [ht] at h
      cases ha : isSpace a with
      | true => simp [ha] at h
      | false =>
        simp [ha] at h
        rw [← h]
        exact ha
    | cons y ys =>
      rw [ht] at h
      simp only [List.getLast?_cons_cons] at h
      rw [← ht] at h
      exact ih h

theorem stripLeft_stripRight {l : List Char} (h : stripLeft l = l) :
    stripLeft (stripRight l) = stripRight l := by
  cases l with
  | nil => rfl
  | cons c t =>
    have hc : isSpace c = false := stripLeft_eq_self_head h
    rw [stripRight_cons]
    cases ht : stripRight t with
    | nil => simp [hc, stripLeft, List.dropWhile]
    | cons y ys => exact stripLeft_cons_not_space _ hc

theorem pyStrip_nil : pyStrip [] = [] := rfl

theorem pyStrip_idem (l : List Char) : pyStrip (pyStrip l) = pyStrip l := by
  unfold pyStrip
  rw [stripLeft_stripRight (stripLeft_idem l), stripRight_idem]

theorem pyStrip_sublist (l : List Char) : pyStrip l <+ l := by
  unfold pyStrip stripLeft
  exact (stripRight_sublist _).trans (List.dropWhile_sublist _)

theorem pyStrip_getLast {l : List Char} {c : Char}
    (h : (pyStrip l).getLast? = some c) : isSpace c = false :=
  stripRight_getLast h

-- ### Lemmas about the tag-removal model

theorem findGt_suffix {l r : List Char} (h : findGt l = some r) : r <:+ l := by
  induction l with
  | nil => simp [findGt] at h
  | cons c t ih =>
    by_cases hc : c = '>'
    · simp [findGt, hc] at h
      rw [← h]
      exact List.suffix_cons c t
    · simp [findGt, hc] at h
      exact (ih h).trans (List.suffix_cons c t)

theorem findGt_length {l r : List Char} (h : findGt l = some r) :
    r.length < l.length := by
  induction l generalizing r with
  | nil => simp [findGt] at h
  | cons c t ih =>
    by_cases hc : c = '>'
    · simp [findGt, hc] at h
      rw [← h]
      simp
    · simp [findGt, hc] at h
      exact Nat.lt_succ_of_lt (ih h)

theorem findGt_append {pre rest : List Char} (h : '>' ∉ pre) :
    findGt (pre ++ '>' :: rest) = some rest := by
  induction pre with
  | nil => simp [findGt]
  | cons c t ih =>
    have hc : c ≠ '>' := fun hc => h (hc ▸ List.mem_cons_self c t)
    simp only [List.cons_append, findGt, if_neg hc]
    exact ih fun hm => h (List.mem_cons_of_mem c hm)

theorem tagStep_nil (f : Nat) : tagStep f [] = [] := by
  cases f <;> rfl

theorem tagStep_fuel : ∀ n f l, l.length ≤ n → l.length ≤ f →
    tagStep f (l : List Char) = tagStep l.length l := by
  intro n
  induction n with
  | zero =>
    intro f l hn _
    have : l = [] := List.eq_nil_of_length_eq_zero (Nat.le_zero.mp hn)
    subst this
    rw [tagStep_nil, tagStep_nil]
  | succ n ih =>
    intro f l hn hf
    cases l with
    | nil => rw [tagStep_nil, tagStep_nil]
    | cons c t =>
      cases f with
      | zero => simp at hf
      | succ f =>
        simp only [List.length_cons] at hn hf
        have hn' : t.length ≤ n := Nat.lt_succ_iff.mp (Nat.lt_of_lt_of_le (Nat.lt_succ_self _) (by omega))
        have hf' : t.length ≤ f := by omega
        simp only [List.length_cons, tagStep]
        by_cases hc : c = '<'
        · rw [if_pos hc, if_pos hc]
          cases hg : findGt t with
          | some t2 =>
            have hlen := findGt_length hg
            show tagStep f t2 = tagStep t.length t2
            rw [ih f t2 (by omega) (by omega), ih t.length t2 (by omega) (by omega)]
          | none =>
            show c :: tagStep f t = c :: tagStep t.length t
            rw [ih f t hn' hf', ih t.length t hn' (Nat.le_refl _)]
        · rw [if_neg hc, if_neg hc, ih f t hn' hf', ih t.length t hn' (Nat.le_refl _)]

theorem removeTags_nil : removeTags [] = [] := rfl

theorem removeTags_cons_ne {c : Char} (t : List Char) (h : ¬ c = '<') :
    removeTags (c :: t) = c :: removeTags t := by
  show tagStep (t.length + 1) (c :: t) = c :: removeTags t
  simp only [tagStep, if_neg h]
  rfl

theorem removeTags_lt_close {t t2 : List Char} (h : findGt t = some t2) :
    removeTags ('<' :: t) = removeTags t2 := by
  show tagStep (t.length + 1) ('<' :: t) = removeTags t2
  simp only [tagStep, if_pos rfl, h]
  exact tagStep_fuel t.length t.length t2 (Nat.le_of_lt (findGt_length h))
    (Nat.le_of_lt (findGt_length h))

theorem removeTags_lt_open {t : List Char} (h : findGt t = none) :
    removeTags ('<' :: t) = '<' :: removeTags t := by
  show tagStep (t.length + 1) ('<' :: t) = '<' :: removeTags t
  simp only [tagStep, if_pos rfl, h]
  rfl

theorem tagStep_sublist : ∀ (f : Nat) (l : List Char), tagStep f l <+ l := by
  intro f
  induction f with
  | zero => intro l; cases l <;> simp [tagStep]
  | succ f ih =>
    intro l
    cases l with
    | nil => simp [tagStep_nil]
    | cons c t =>
      simp only [tagStep]
      by_cases hc : c = '<'
      · rw [if_pos hc]
        cases hg : findGt t with
        | some t2 =>
          exact ((ih t2).trans (findGt_suffix hg).sublist).cons c
        | none => exact (ih t).cons₂ c
      · rw [if_neg hc]
        exact (ih t).cons₂ c

theorem removeTags_sublist (l : List Char) : removeTags l <+ l :=
  tagStep_sublist l.length l

/-- A line made only of tags is erased entirely by tag removal. -/
theorem removeTags_tagsOnly {l : List Char} (h : TagsOnly l) : removeTags l = [] := by
  induction h with
  | nil => rfl
  | cons inner rest hin _ ih =>
    rw [List.cons_append, removeTags_lt_close (findGt_append hin), ih]

-- ### Lemmas about line splitting and joining

theorem normNl_nil : normNl [] = [] := rfl

theorem normNl_cr : normNl ['\r'] = ['\n'] := by simp [normNl]

theorem normNl_one {c : Char} (h : ¬ c = '\r') : normNl [c] = [c] := by
  simp [normNl, h]

theorem normNl_crlf (t : List Char) : normNl ('\r' :: '\n' :: t) = '\n' :: normNl t := by
  simp [normNl]

theorem normNl_cr_other {d : Char} (t : List Char) (h : ¬ d = '\n') :
    normNl ('\r' :: d :: t) = '\n' :: normNl (d :: t) := by
  simp [normNl, h]

theorem normNl_other {c : Char} (d : Char) (t : List Char) (h : ¬ c = '\r') :
    normNl (c :: d :: t) = c :: normNl (d :: t) := by
  simp [normNl, h]

theorem normNl_no_cr (l : List Char) : '\r' ∉ normNl l := by
  induction l using normNl.induct with
  | case1 => simp [normNl_nil]
  | case2 => rw [normNl_cr]; decide
  | case3 c hc =>
    rw [normNl_one hc]
    simp
    exact fun h => hc h.symm
  | case4 t ih =>
    rw [normNl_crlf]
    simp only [List.mem_cons]
    rintro (h | h)
    · exact absurd h (by decide)
    · exact ih h
  | case5 d t hd ih =>
    rw [normNl_cr_other t hd]
    simp only [List.mem_cons]
    rintro (h | h)
    · exact absurd h (by decide)
    · exact ih h
  | case6 c d t hc ih =>
    rw [normNl_other d t hc]
    simp only [List.mem_cons]
    rintro (h | h)
    · exact hc h.symm
    · exact ih h

theorem normNl_eq_self {l : List Char} (h : '\r' ∉ l) : normNl l = l := by
  induction l using normNl.induct with
  | case1 => rfl
  | case2 => exact absurd (List.mem_cons_self _ _) h
  | case3 c hc => exact normNl_one hc
  | case4 t ih => exact absurd (List.mem_cons_self _ _) h
  | case5 d t hd ih => exact absurd (List.mem_cons_self _ _) h
  | case6 c d t hc ih =>
    rw [normNl_other d t hc, ih fun hm => h (List.mem_cons_of_mem c hm)]

theorem consHead_ne_nil (c : Char) (ss : List (List Char)) : consHead c ss ≠ [] := by
  cases ss <;> simp [consHead]

theorem splitNl_ne_nil (l : List Char) : splitNl l ≠ [] := by
  cases l with
  | nil => simp [splitNl]
  | cons c t =>
    by_cases hc : c = '\n' <;> simp [splitNl, hc]
    exact consHead_ne_nil c (splitNl t)

theorem splitNl_chars {l : List Char} {s : List Char} (hs : s ∈ splitNl l) :
    ∀ c ∈ s, c ∈ l := by
  induction l generalizing s with
  | nil =>
    simp [splitNl] at hs
    simp [hs]
  | cons a t ih =>
    by_cases ha : a = '\n'
    · rw [splitNl, if_pos ha] at hs
      rcases List.mem_cons.mp hs with h | h
      · simp [h]
      · exact fun c hc => List.mem_cons_of_mem a (ih h c hc)
    · rw [splitNl, if_neg ha] at hs
      cases hsp : splitNl t with
      | nil => exact absurd hsp (splitNl_ne_nil t)
      | cons s0 ss =>
        rw [hsp] at hs
        rcases List.mem_cons.mp hs with h | h
        · subst h
          intro c hc
          rcases List.mem_cons.mp hc with h | h
          · simp [h]
          · exact List.mem_cons_of_mem a (ih (hsp ▸ List.mem_cons_self s0 ss) c h)
        · exact fun c hc =>
            List.mem_cons_of_mem a (ih (hsp ▸ List.mem_cons_of_mem s0 h) c hc)

theorem splitNl_no_newline {l s : List Char} (hs : s ∈ splitNl l) : '\n' ∉ s := by
  induction l generalizing s with
  | nil =>
    simp [splitNl] at hs
    simp [hs]
  | cons a t ih =>
    by_cases ha : a = '\n'
    · rw [splitNl, if_pos ha] at hs
      rcases List.mem_cons.mp hs with h | h
      · simp [h]
      · exact ih h
    · rw [splitNl, if_neg ha] at hs
      cases hsp : splitNl t with
      | nil => exact absurd hsp (splitNl_ne_nil t)
      | cons s0 ss =>
        rw [hsp] at hs
        rcases List.mem_cons.mp hs with h | h
        · subst h
          intro hc
          rcases List.mem_cons.mp hc with h | h
          · exact ha h.symm
          · exact ih (hsp ▸ List.mem_cons_self s0 ss) h
        · exact ih (hsp ▸ List.mem_cons_of_mem s0 h)

theorem splitNl_append {a : List Char} (rest : List Char) (h : '\n' ∉ a) :
    splitNl (a ++ '\n' :: rest) = a :: splitNl rest := by
  induction a with
  | nil => simp [splitNl]
  | cons c t ih =>
    have hc : ¬ c = '\n' := fun hc => h (by simp [hc])
    rw [List.cons_append, splitNl, if_neg hc,
      ih fun hm => h (List.mem_cons_of_mem c hm)]
    rfl

theorem joinLines_cons (l : List Char) (l2 : List Char) (t : List (List Char)) :
    joinLines (l :: l2 :: t) = l ++ '\n' :: joinLines (l2 :: t) := rfl

theorem joinLines_chars {ls : List (List Char)} {c : Char} (h : c ∈ joinLines ls) :
    c = '\n' ∨ ∃ l ∈ ls, c ∈ l := by
  induction ls with
  | nil => simp [joinLines] at h
  | cons l t ih =>
    cases t with
    | nil =>
      simp only [joinLines] at h
      exact Or.inr ⟨l, List.mem_cons_self l [], h⟩
    | cons l2 t2 =>
      rw [joinLines_cons] at h
      rcases List.mem_append.mp h with h | h
      · exact Or.inr ⟨l, List.mem_cons_self _ _, h⟩
      · rcases List.mem_cons.mp h with h | h
        · exact Or.inl h
        · rcases ih h with h | ⟨l', hl', hc⟩
          · exact Or.inl h
          · exact Or.inr ⟨l', List.mem_cons_of_mem l hl', hc⟩

theorem joinLines_ne_nil {ls : List (List Char)} (h : ls ≠ [])
    (h2 : ∀ l ∈ ls, l ≠ []) : joinLines ls ≠ [] := by
  cases ls with
  | nil => exact absurd rfl h
  | cons l t =>
    cases t with
    | nil => exact h2 l (List.mem_cons_self l [])
    | cons l2 t2 =>
      rw [joinLines_cons]
      intro hx
      rcases List.append_eq_nil.mp hx with ⟨_, h2⟩
      exact List.cons_ne_nil _ _ h2

theorem splitNl_joinNl {ls : List (List Char)} (h : ls ≠ [])
    (hn : ∀ l ∈ ls, '\n' ∉ l) :
    splitNl (joinLines ls ++ ['\n']) = ls ++ [[]] := by
  induction ls with
  | nil => exact absurd rfl h
  | cons l t ih =>
    cases t with
    | nil =>
      show splitNl (l ++ '\n' :: []) = [l, []]
      rw [splitNl_append [] (hn l (List.mem_cons_self l []))]
      rfl
    | cons l2 t2 =>
      rw [joinLines_cons, List.append_assoc, List.cons_append,
        splitNl_append _ (hn l (List.mem_cons_self _ _)),
        ih (List.cons_ne_nil l2 t2) fun x hx => hn x (List.mem_cons_of_mem l hx)]
      rfl

theorem joinLines_getLast {ls : List (List Char)} (h : ls ≠ [])
    (h1 : ∀ l ∈ ls, l ≠ [])
    (h2 : ∀ l ∈ ls, ∀ c, l.getLast? = some c → isSpace c = false) :
    ∀ c, (joinLines ls).getLast? = some c → isSpace c = false := by
  induction ls with
  | nil => exact absurd rfl h
  | cons l t ih =>
    cases t with
    | nil =>
      intro c hc
      exact h2 l (List.mem_cons_self l []) c hc
    | cons l2 t2 =>
      intro c hc
      rw [joinLines_cons, List.getLast?_append_cons] at hc
      have hne : joinLines (l2 :: t2) ≠ [] :=
        joinLines_ne_nil (List.cons_ne_nil l2 t2)
          fun x hx => h1 x (List.mem_cons_of_mem l hx)
      cases hj : joinLines (l2 :: t2) with
      | nil => exact absurd hj hne
      | cons y ys =>
        rw [hj, List.getLast?_cons_cons] at hc
        refine ih (List.cons_ne_nil l2 t2)
          (fun x hx => h1 x (List.mem_cons_of_mem l hx))
          (fun x hx => h2 x (List.mem_cons_of_mem l hx)) c ?_
        rw [hj]
        exact hc

-- ### Lemmas about the per-line transform and the file transform

theorem processLine_none {raw : List Char}
    (h : pyStrip raw = [] ∨ isTimestamp (pyStrip raw) = true ∨
      isSeqNum (pyStrip raw) = true) :
    processLine raw = none := by
  rcases h with h | h | h <;> simp [processLine, h]

theorem processLine_nil : processLine [] = none :=
  processLine_none (Or.inl rfl)

theorem processLine_some {raw out : List Char} (h : processLine raw = some out) :
    out = pyStrip (removeTags (pyStrip raw)) ∧ out ≠ [] := by
  simp only [processLine] at h
  split_ifs at h with h1 h2 h3
  have he := (Option.some_inj.mp h).symm
  exact ⟨he, by rw [he]; exact h3⟩

theorem processLine_fixed {l : List Char} (h1 : l ≠ []) (h2 : pyStrip l = l)
    (h3 : isTimestamp l = false) (h4 : isSeqNum l = false)
    (h5 : removeTags l = l) : processLine l = some l := by
  simp [processLine, h1, h2, h3, h4, h5]

theorem clean_srt_eq_some {content out : List Char} :
    clean_srt content = some out ↔
      cleanedLines content ≠ [] ∧ out = joinNl (cleanedLines content) := by
  unfold clean_srt
  by_cases h : cleanedLines content = [] <;> simp [h, eq_comm]

theorem cleanedLines_mem {content l : List Char} (h : l ∈ cleanedLines content) :
    l ≠ [] ∧ pyStrip l = l ∧ '\n' ∉ l ∧ '\r' ∉ l ∧
      (∀ c, l.getLast? = some c → isSpace c = false) := by
  obtain ⟨raw, hraw, hp⟩ := List.mem_filterMap.mp h
  obtain ⟨hout, hne⟩ := processLine_some hp
  have hsub : l ⊆ raw := by
    rw [hout]
    exact (((pyStrip_sublist _).trans (removeTags_sublist _)).trans
      (pyStrip_sublist raw)).subset
  have hnn : '\n' ∉ raw := splitNl_no_newline hraw
  have hnr : '\r' ∉ raw := fun hc => normNl_no_cr content (splitNl_chars hraw '\r' hc)
  refine ⟨hne, ?_, fun hc => hnn (hsub hc), fun hc => hnr (hsub hc), ?_⟩
  · rw [hout, pyStrip_idem]
  · intro c hc
    rw [hout] at hc
    exact pyStrip_getLast hc

-- ### Lemmas about the timestamp pattern

theorem lit_eq_some {c : Char} {x r : List Char} :
    lit c x = some r ↔ x = c :: r := by
  cases x with
  | nil => simp [lit]
  | cons y t =>
    by_cases hy : y = c
    · subst hy
      simp [lit]
    · simp [lit, hy]

theorem digit1_eq_some {x r : List Char} :
    digit1 x = some r ↔ ∃ c : Char, c.isDigit = true ∧ x = c :: r := by
  constructor
  · intro h
    cases x with
    | nil => simp [digit1] at h
    | cons y t =>
      simp only [digit1] at h
      split_ifs at h with hy
      exact ⟨y, hy, by rw [Option.some_inj.mp h]⟩
  · rintro ⟨c, hc, rfl⟩
    simp [digit1, hc]

theorem arrowTok_eq_some {x r : List Char} :
    arrowTok x = some r ↔ x = ' ' :: '-' :: '-' :: '>' :: ' ' :: r := by
  constructor
  · intro h
    unfold arrowTok at h
    obtain ⟨y4, h4, hy5⟩ := Option.bind_eq_some.mp h
    obtain ⟨y3, h3, hy4⟩ := Option.bind_eq_some.mp h4
    obtain ⟨y2, h2, hy3⟩ := Option.bind_eq_some.mp h3
    obtain ⟨y1, h1, hy2⟩ := Option.bind_eq_some.mp h2
    rw [lit_eq_some] at h1 hy2 hy3 hy4 hy5
    rw [h1, hy2, hy3, hy4, hy5]
  · intro h
    subst h
    simp [arrowTok, lit]

theorem matchTime_eq_some {x r : List Char} :
    matchTime x = some r ↔
      ∃ a b c d e f g h i : Char,
        a.isDigit = true ∧ b.isDigit = true ∧ c.isDigit = true ∧
        d.isDigit = true ∧ e.isDigit = true ∧ f.isDigit = true ∧
        g.isDigit = true ∧ h.isDigit = true ∧ i.isDigit = true ∧
        x = a :: b :: ':' :: c :: d :: ':' :: e :: f :: ',' :: g :: h :: i :: r := by
  constructor
  · intro hm
    unfold matchTime at hm
    obtain ⟨y11, hm, hs12⟩ := Option.bind_eq_some.mp hm
    obtain ⟨y10, hm, hs11⟩ := Option.bind_eq_some.mp hm
    obtain ⟨y9, hm, hs10⟩ := Option.bind_eq_some.mp hm
    obtain ⟨y8, hm, hs9⟩ := Option.bind_eq_some.mp hm
    obtain ⟨y7, hm, hs8⟩ := Option.bind_eq_some.mp hm
    obtain ⟨y6, hm, hs7⟩ := Option.bind_eq_some.mp hm
    obtain ⟨y5, hm, hs6⟩ := Option.bind_eq_some.mp hm
    obtain ⟨y4, hm, hs5⟩ := Option.bind_eq_some.mp hm
    obtain ⟨y3, hm, hs4⟩ := Option.bind_eq_some.mp hm
    obtain ⟨y2, hm, hs3⟩ := Option.bind_eq_some.mp hm
    obtain ⟨y1, hs1, hs2⟩ := Option.bind_eq_some.mp hm
    obtain ⟨a, ha, hx⟩ := digit1_eq_some.mp hs1
    obtain ⟨b, hb, hy1⟩ := digit1_eq_some.mp hs2
    have hy2 := lit_eq_some.mp hs3
    obtain ⟨c, hc, hy3⟩ := digit1_eq_some.mp hs4
    obtain ⟨d, hd, hy4⟩ := digit1_eq_some.mp hs5
    have hy5 := lit_eq_some.mp hs6
    obtain ⟨e, he, hy6⟩ := digit1_eq_some.mp hs7
    obtain ⟨f, hf, hy7⟩ := digit1_eq_some.mp hs8
    have hy8 := lit_eq_some.mp hs9
    obtain ⟨g, hg, hy9⟩ := digit1_eq_some.mp hs10
    obtain ⟨h, hh, hy10⟩ := digit1_eq_some.mp hs11
    obtain ⟨i, hi, hy11⟩ := digit1_eq_some.mp hs12
    refine ⟨a, b, c, d, e, f, g, h, i, ha, hb, hc, hd, he, hf, hg, hh, hi, ?_⟩
    rw [hx, hy1, hy2, hy3, hy4, hy5, hy6, hy7, hy8, hy9, hy10, hy11]
  · rintro ⟨a, b, c, d, e, f, g, h, i, ha, hb, hc, hd, he, hf, hg, hh, hi, rfl⟩
    simp [matchTime, digit1, lit, ha, hb, hc, hd, he, hf, hg, hh, hi]

theorem timeSpec_iff {t : List Char} :
    timeSpec t ↔
      ∃ a b c d e f g h i : Char,
        a.isDigit = true ∧ b.isDigit = true ∧ c.isDigit = true ∧
        d.isDigit = true ∧ e.isDigit = true ∧ f.isDigit = true ∧
        g.isDigit = true ∧ h.isDigit = true ∧ i.isDigit = true ∧
        t = [a, b, ':', c, d, ':', e, f, ',', g, h, i] := by
  constructor
  · rintro ⟨hh, mm, ss, ms, rfl, h2, h3, h4, h5, hd⟩
    obtain ⟨a, b, rfl⟩ := List.length_eq_two.mp h2
    obtain ⟨c, d, rfl⟩ := List.length_eq_two.mp h3
    obtain ⟨e, f, rfl⟩ := List.length_eq_two.mp h4
    obtain ⟨g, h, i, rfl⟩ := List.length_eq_three.mp h5
    refine ⟨a, b, c, d, e, f, g, h, i,
      hd a (by simp), hd b (by simp), hd c (by simp), hd d (by simp),
      hd e (by simp), hd f (by simp), hd g (by simp), hd h (by simp),
      hd i (by simp), ?_⟩
    simp
  · rintro ⟨a, b, c, d, e, f, g, h, i, ha, hb, hc, hd, he, hf, hg, hh, hi, rfl⟩
    refine ⟨[a, b], [c, d], [e, f], [g, h, i], by simp, rfl, rfl, rfl, rfl, ?_⟩
    intro x hx
    rcases hx with hx | hx | hx | hx
    · simp at hx
      rcases hx with rfl | rfl <;> assumption
    · simp at hx
      rcases hx with rfl | rfl <;> assumption
    · simp at hx
      rcases hx with rfl | rfl <;> assumption
    · simp at hx
      rcases hx with rfl | rfl | rfl <;> assumption

-- ### Claim C7

/-- C7: the cleaner's timestamp filter discards a trimmed line if and
only if the entire line is `HH:MM:SS,mmm --> HH:MM:SS,mmm` with exactly
two digits for hours, minutes and seconds, three digits for
milliseconds, comma separators, and the exact literal `" --> "` arrow;
near-miss lines are not matched. -/
theorem c7_timestamp_filter_iff (l : List Char) :
    isTimestamp l = true ↔ timestampSpec l := by
  unfold isTimestamp
  rw [decide_eq_true_iff]
  constructor
  · intro hm
    obtain ⟨r2, hm1, hm2⟩ := Option.bind_eq_some.mp hm
    obtain ⟨r1, hma, hmb⟩ := Option.bind_eq_some.mp hm1
    obtain ⟨a, b, c, d, e, f, g, h, i,
      ha, hb, hc, hd, he, hf, hg, hh, hi, hl⟩ := matchTime_eq_some.mp hma
    have hr1 := arrowTok_eq_some.mp hmb
    obtain ⟨a2, b2, c2, d2, e2, f2, g2, h2, i2,
      ha2, hb2, hc2, hd2, he2, hf2, hg2, hh2, hi2, hr2⟩ := matchTime_eq_some.mp hm2
    refine ⟨[a, b, ':', c, d, ':', e, f, ',', g, h, i],
      [a2, b2, ':', c2, d2, ':', e2, f2, ',', g2, h2, i2],
      timeSpec_iff.mpr ⟨a, b, c, d, e, f, g, h, i,
        ha, hb, hc, hd, he, hf, hg, hh, hi, rfl⟩,
      timeSpec_iff.mpr ⟨a2, b2, c2, d2, e2, f2, g2, h2, i2,
        ha2, hb2, hc2, hd2, he2, hf2, hg2, hh2, hi2, rfl⟩, ?_⟩
    rw [hl, hr1, hr2]
    simp
  · rintro ⟨t1, t2, ht1, ht2, rfl⟩
    obtain ⟨a, b, c, d, e, f, g, h, i,
      ha, hb, hc, hd, he, hf, hg, hh, hi, rfl⟩ := timeSpec_iff.mp ht1
    obtain ⟨a2, b2, c2, d2, e2, f2, g2, h2, i2,
      ha2, hb2, hc2, hd2, he2, hf2, hg2, hh2, hi2, rfl⟩ := timeSpec_iff.mp ht2
    simp [matchTime, arrowTok, digit1, lit,
      ha, hb, hc, hd, he, hf, hg, hh, hi,
      ha2, hb2, hc2, hd2, he2, hf2, hg2, hh2, hi2]

/-- C7 witness: the filter accepts a canonical timestamp line, so the
iff's hypotheses are satisfiable at a concrete input. -/
theorem c7_timestamp_filter_iff_witness :
    timestampSpec ("00:00:01,000 --> 00:00:02,000".data) :=
  (c7_timestamp_filter_iff ("00:00:01,000 --> 00:00:02,000".data)).mp (by decide)

-- ### Claim C1

/-- C1 counterexample: on the literal input (with the `"..."` line taken
literally) the cleaner does NOT write `"Hello world\nGoodbye\n"` — the
`"..."` line survives every filter, so the claimed output is wrong. -/
theorem c1_counterexample :
    (clean_srt_file
        ("1\n00:00:01,000 --> 00:00:02,000\nHello <b>world</b>\n\n2\n...\nGoodbye\n".data)).2
      ≠ "Hello world\nGoodbye\n".data := by decide

/-- C1 amended: for that literal input the cleaner reports success and
writes back exactly `"Hello world\n...\nGoodbye\n"` (the `"..."` line is
kept: it is non-blank, not a timestamp range, not purely digits, and
carries no tags). -/
theorem c1_amended_example :
    clean_srt_file
        ("1\n00:00:01,000 --> 00:00:02,000\nHello <b>world</b>\n\n2\n...\nGoodbye\n".data)
      = (true, "Hello world\n...\nGoodbye\n".data) := by decide

theorem tagsOnly_shape {s : List Char} (h : TagsOnly s) (hne : s ≠ []) :
    ∃ inner rest, '>' ∉ inner ∧ TagsOnly rest ∧
      s = '<' :: (inner ++ '>' :: rest) := by
  cases h with
  | nil => exact absurd rfl hne
  | cons inner rest hin hrest =>
    exact ⟨inner, rest, hin, hrest, List.cons_append '<' inner ('>' :: rest)⟩

-- ### Claim C2

/-- C2: a line whose stripped form consists only of markup tags is
removed entirely (it passes the blank/timestamp/sequence filters, tag
stripping erases it, and the emptiness re-check drops it), and no kept
line is empty, so no stray blank line can appear in the output. -/
theorem c2_tag_only_lines_removed :
    (∀ l : List Char, TagsOnly (pyStrip l) → pyStrip l ≠ [] → processLine l = none) ∧
    (∀ l out : List Char, processLine l = some out → out ≠ []) := by
  constructor
  · intro l ht hne
    obtain ⟨inner, rest, hin, hrest, hs⟩ := tagsOnly_shape ht hne
    have hdig : ('<' : Char).isDigit = false := by decide
    have hts : isTimestamp (pyStrip l) = false := by
      rw [hs]
      simp [isTimestamp, matchTime, digit1, hdig]
    have hsq : isSeqNum (pyStrip l) = false := by
      rw [hs]
      simp [isSeqNum, hdig]
    have hrt : removeTags (pyStrip l) = [] := removeTags_tagsOnly ht
    simp [processLine, hne, hts, hsq, hrt, pyStrip_nil]
  · intro l out h
    exact (processLine_some h).2

/-- C2 witness: the concrete tag-only line `"<i></i>"` is dropped, at a
concrete instantiation of the hypotheses. -/
theorem c2_tag_only_lines_removed_witness :
    processLine ("<i></i>".data) = none := by
  have h2 : TagsOnly ['<', '/', 'i', '>'] := by
    have h := TagsOnly.cons ['/', 'i'] [] (by decide) TagsOnly.nil
    simpa using h
  have h1 : TagsOnly (pyStrip ("<i></i>".data)) := by
    have h := TagsOnly.cons ['i'] ['<', '/', 'i', '>'] (by decide) h2
    have hs : pyStrip ("<i></i>".data) = ['<', 'i', '>', '<', '/', 'i', '>'] := by decide
    rw [hs]
    simpa using h
  exact c2_tag_only_lines_removed.1 ("<i></i>".data) h1 (by decide)

-- ### Claim C4

/-- C4: if every line of the input is blank after trimming, a full-line
timestamp range, or purely digits, then `clean_srt_file` returns the
failure flag and the file content is unchanged (nothing is written). -/
theorem c4_structural_only_input_fails (content : List Char)
    (h : ∀ l ∈ modelLines content,
      pyStrip l = [] ∨ isTimestamp (pyStrip l) = true ∨ isSeqNum (pyStrip l) = true) :
    clean_srt_file content = (false, content) := by
  have hcl : cleanedLines content = [] := by
    rw [cleanedLines, List.filterMap_eq_nil_iff]
    intro a ha
    exact processLine_none (h a ha)
  simp [clean_srt_file, clean_srt, hcl]

/-- C4 witness: a concrete input of only a sequence number, a timestamp
line and blank lines is rejected unchanged. -/
theorem c4_structural_only_input_fails_witness :
    clean_srt_file ("1\n00:00:01,000 --> 00:00:02,000\n\n".data)
      = (false, "1\n00:00:01,000 --> 00:00:02,000\n\n".data) :=
  c4_structural_only_input_fails ("1\n00:00:01,000 --> 00:00:02,000\n\n".data)
    (by decide)

-- ### Claim C8

theorem filterMap_sublist_map {α β : Type} (f : α → Option β) (g : α → β)
    (l : List α) (h : ∀ a b, f a = some b → b = g a) :
    l.filterMap f <+ l.map g := by
  induction l with
  | nil => simp
  | cons a t ih =>
    rw [List.filterMap_cons, List.map_cons]
    cases hf : f a with
    | none => exact ih.cons (g a)
    | some b =>
      rw [h a b hf]
      exact ih.cons₂ (g a)

/-- C8: the list of lines the cleaner writes is an order-preserving
subsequence of the input's lines, each mapped by trimming, tag removal
and re-trimming: cleaning never reorders, duplicates or merges lines. -/
theorem c8_clean_is_filter (content : List Char) :
    cleanedLines content <+
      (modelLines content).map (fun raw => pyStrip (removeTags (pyStrip raw))) :=
  filterMap_sublist_map processLine _ (modelLines content)
    (fun _ _ hb => (processLine_some hb).1)

-- ### Claim C10

/-- C10: when cleaning succeeds, the written content is a nonempty list
of lines `ls` whose join (with one trailing newline) is the output, and
`ls` really is the output's line decomposition: splitting the written
content on newlines gives exactly `ls` plus the single empty piece after
the final newline.  Every one of those lines is nonempty, contains no
newline, and carries no leading or trailing whitespace, and the content
ends with exactly one trailing newline. -/
theorem c10_output_invariants {content out : List Char}
    (h : clean_srt content = some out) :
    (∃ ls, ls ≠ [] ∧ out = joinNl ls ∧ modelLines out = ls ++ [[]] ∧
      ∀ l ∈ ls, l ≠ [] ∧ pyStrip l = l ∧ '\n' ∉ l) ∧
    ['\n'] <:+ out ∧ ¬ (['\n', '\n'] <:+ out) := by
  obtain ⟨hne, hout⟩ := clean_srt_eq_some.mp h
  have hmem : ∀ l ∈ cleanedLines content, l ≠ [] ∧ pyStrip l = l ∧ '\n' ∉ l ∧
      '\r' ∉ l ∧ (∀ c, l.getLast? = some c → isSpace c = false) :=
    fun _ hl => cleanedLines_mem hl
  have hnr : '\r' ∉ joinNl (cleanedLines content) := by
    rw [joinNl]
    intro hc
    rcases List.mem_append.mp hc with hc | hc
    · rcases joinLines_chars hc with hc | ⟨l, hl, hcl⟩
      · exact absurd hc (by decide)
      · exact (hmem l hl).2.2.2.1 hcl
    · simp at hc
  have hlines : modelLines out = cleanedLines content ++ [[]] := by
    rw [hout, modelLines, normNl_eq_self hnr]
    exact splitNl_joinNl hne fun l hl => (hmem l hl).2.2.1
  refine ⟨⟨cleanedLines content, hne, hout, hlines,
    fun l hl => ⟨(hmem l hl).1, (hmem l hl).2.1, (hmem l hl).2.2.1⟩⟩, ?_, ?_⟩
  · rw [hout]
    exact ⟨joinLines (cleanedLines content), rfl⟩
  · rintro ⟨q, hq⟩
    rw [hout] at hq
    have h2 : (q ++ ['\n']) ++ ['\n'] = joinLines (cleanedLines content) ++ ['\n'] := by
      simpa [List.append_assoc] using hq
    have hjoin : joinLines (cleanedLines content) = q ++ ['\n'] :=
      (List.append_cancel_right h2).symm
    have hlast : (joinLines (cleanedLines content)).getLast? = some '\n' := by
      rw [hjoin, show q ++ ['\n'] = q ++ '\n' :: [] from rfl,
        List.getLast?_append_cons]
      rfl
    have := joinLines_getLast hne (fun l hl => (hmem l hl).1)
      (fun l hl => (hmem l hl).2.2.2.2) '\n' hlast
    exact absurd this (by decide)

/-- C10 witness: the invariants hold at a concrete cleaned file. -/
theorem c10_output_invariants_witness :
    (∃ ls, ls ≠ [] ∧ "Hi there\n".data = joinNl ls ∧
      modelLines ("Hi there\n".data) = ls ++ [[]] ∧
      ∀ l ∈ ls, l ≠ [] ∧ pyStrip l = l ∧ '\n' ∉ l) ∧
    ['\n'] <:+ "Hi there\n".data ∧ ¬ (['\n', '\n'] <:+ "Hi there\n".data) :=
  @c10_output_invariants (" Hi there \n\n".data) ("Hi there\n".data) (by decide)

-- ### Claim C3

/-- C3 counterexample: cleaning is NOT idempotent on its own output.
For the input `"1<b>\nHello\n"` cleaning succeeds and writes
`"1\nHello\n"` (tag removal turned `"1<b>"` into the digit-only line
`"1"`), and cleaning that output drops the `"1"` as a sequence number,
yielding the different content `"Hello\n"`. -/
theorem c3_counterexample :
    clean_srt ("1<b>\nHello\n".data) = some ("1\nHello\n".data) ∧
    clean_srt ("1\nHello\n".data) = some ("Hello\n".data) ∧
    "Hello\n".data ≠ "1\nHello\n".data :=
  ⟨by decide, by decide, by decide⟩

theorem filterMap_eq_self_of {α : Type} (f : α → Option α) (l : List α)
    (h : ∀ x ∈ l, f x = some x) : l.filterMap f = l := by
  induction l with
  | nil => simp
  | cons a t ih =>
    rw [List.filterMap_cons, h a (List.mem_cons_self a t),
      ih fun x hx => h x (List.mem_cons_of_mem a hx)]

/-- C3 amended: idempotence holds for outputs in which no timestamp
line, no digit-only line and no tag text remains — if cleaning `content`
succeeds with output `out`, and every line of `out` is neither a
timestamp range nor digits-only and is left unchanged by tag removal,
then cleaning `out` succeeds and returns `out` unchanged. -/
theorem c3_idempotent_amended {content out : List Char}
    (h : clean_srt content = some out)
    (hpure : ∀ l ∈ modelLines out,
      isTimestamp l = false ∧ isSeqNum l = false ∧ removeTags l = l) :
    clean_srt out = some out := by
  obtain ⟨hne, hout⟩ := clean_srt_eq_some.mp h
  have hmem : ∀ l ∈ cleanedLines content, l ≠ [] ∧ pyStrip l = l ∧ '\n' ∉ l ∧
      '\r' ∉ l ∧ (∀ c, l.getLast? = some c → isSpace c = false) :=
    fun _ hl => cleanedLines_mem hl
  have hnr : '\r' ∉ joinNl (cleanedLines content) := by
    rw [joinNl]
    intro hc
    rcases List.mem_append.mp hc with hc | hc
    · rcases joinLines_chars hc with hc | ⟨l, hl, hcl⟩
      · exact absurd hc (by decide)
      · exact (hmem l hl).2.2.2.1 hcl
    · simp at hc
  have hlines : modelLines out = cleanedLines content ++ [[]] := by
    rw [hout, modelLines, normNl_eq_self hnr]
    exact splitNl_joinNl hne fun l hl => (hmem l hl).2.2.1
  have hcl : cleanedLines out = cleanedLines content := by
    rw [cleanedLines, hlines, List.filterMap_append]
    have h1 : List.filterMap processLine (cleanedLines content) = cleanedLines content := by
      refine filterMap_eq_self_of processLine _ fun l hl => ?_
      have hl2 : l ∈ modelLines out := by
        rw [hlines]
        exact List.mem_append_left _ hl
      exact processLine_fixed (hmem l hl).1 (hmem l hl).2.1 (hpure l hl2).1
        (hpure l hl2).2.1 (hpure l hl2).2.2
    have h2 : List.filterMap processLine [[]] = [] := by
      simp [processLine_nil]
    rw [h1, h2, List.append_nil]
  rw [clean_srt_eq_some, hcl]
  exact ⟨hne, hout⟩

/-- C3 witness: a concrete already-clean file really is a fixed point. -/
theorem c3_idempotent_amended_witness :
    clean_srt ("Hello\n".data) = some ("Hello\n".data) :=
  @c3_idempotent_amended ("1\nHello\n".data) ("Hello\n".data)
    (by decide) (by decide)

-- ### Claim C5

/-- C5: when the fetched subtitle file is missing or has size exactly
zero, `download_subtitles` returns the failure flag (it does not raise:
the model is a total function, matching the caught-exception paths of
the code); in the zero-size case with a successful fetch it deletes the
empty file first, and a failed deletion is swallowed — the flag is
`false` for every deletion outcome. -/
theorem c5_download_missing_or_empty_fails
    (dl : Except String ProcResult) (file : Option Nat) (removeOk : Bool)
    (h : file = none ∨ file = some 0) :
    (download_subtitles dl file removeOk).1 = false ∧
    (∀ r, dl = .ok r → file = some 0 →
      (download_subtitles dl file removeOk).2 = if removeOk then none else some 0) := by
  rcases h with rfl | rfl <;> cases dl <;>
    simp [download_subtitles]

/-- C5 witness: concrete zero-size file with successful fetch and a
failing deletion still yields the failure flag, file left in place. -/
theorem c5_download_missing_or_empty_fails_witness :
    (download_subtitles (.ok ⟨0, "", ""⟩) (some 0) false).1 = false ∧
    (∀ r, (.ok ⟨0, "", ""⟩ : Except String ProcResult) = .ok r → (some 0 : Option Nat) = some 0 →
      (download_subtitles (.ok ⟨0, "", ""⟩) (some 0) false).2 = if false then none else some 0) :=
  c5_download_missing_or_empty_fails (.ok ⟨0, "", ""⟩) (some 0) false (Or.inr rfl)

-- ### Claim C6

/-- C6: a non-zero exit of the text-generation runner makes
`run_command` produce an error whose message contains the captured
stderr and stdout, makes the summarize step report failure, and makes
`main` exit with code 1 (whatever the earlier stage flags were). -/
theorem c6_runner_failure_exits_one (r : ProcResult) (commandList : List String)
    (stepName : String) (content : String) (dl clean : Bool)
    (h : r.returncode ≠ 0) :
    (∃ msg, run_command commandList stepName (.completed r) = .error msg ∧
      r.stderr.data <:+: msg.data ∧ r.stdout.data <:+: msg.data) ∧
    summarize_transcript content (.completed r) = false ∧
    main_exit_full dl clean (summarize_transcript content (.completed r))
      (.completed r) DELETE_TRANSCRIPT_AFTER_SUMMARY true = 1 := by
  have hmsg : run_command commandList stepName (.completed r) =
      .error ("Error during " ++ stepName ++ ": Command exited with status "
        ++ toString r.returncode ++ "\nCommand: "
        ++ String.intercalate " " commandList
        ++ "\nSTDERR:\n" ++ r.stderr ++ "\nSTDOUT:\n" ++ r.stdout) := by
    simp [run_command, h]
  have hsum : summarize_transcript content (.completed r) = false := by
    by_cases hc : content.trim = ""
    · simp [summarize_transcript, hc]
    · simp [summarize_transcript, hc, run_command, h]
  refine ⟨⟨_, hmsg, ?_, ?_⟩, hsum, ?_⟩
  · refine ⟨("Error during " ++ stepName ++ ": Command exited with status "
      ++ toString r.returncode ++ "\nCommand: "
      ++ String.intercalate " " commandList ++ "\nSTDERR:\n").data,
      ("\nSTDOUT:\n" ++ r.stdout).data, ?_⟩
    simp [List.append_assoc]
  · refine ⟨("Error during " ++ stepName ++ ": Command exited with status "
      ++ toString r.returncode ++ "\nCommand: "
      ++ String.intercalate " " commandList
      ++ "\nSTDERR:\n" ++ r.stderr ++ "\nSTDOUT:\n").data, [], ?_⟩
    simp [List.append_assoc]
  · rw [hsum]
    cases dl <;> cases clean <;> simp [main_exit_full]

/-- C6 witness: a concrete failing runner invocation. -/
theorem c6_runner_failure_exits_one_witness :
    (∃ msg, run_command ["ollama", "run", OLLAMA_MODEL, PROMPT] "Summarization"
        (.completed ⟨1, "partial out", "model crashed"⟩) = .error msg ∧
      ("model crashed".data <:+: msg.data) ∧ ("partial out".data <:+: msg.data)) ∧
    summarize_transcript "some transcript" (.completed ⟨1, "partial out", "model crashed"⟩) = false ∧
    main_exit_full true true
      (summarize_transcript "some transcript" (.completed ⟨1, "partial out", "model crashed"⟩))
      (.completed ⟨1, "partial out", "model crashed"⟩) DELETE_TRANSCRIPT_AFTER_SUMMARY true = 1 :=
  c6_runner_failure_exits_one ⟨1, "partial out", "model crashed"⟩
    ["ollama", "run", OLLAMA_MODEL, PROMPT] "Summarization" "some transcript"
    true true (by decide)

-- ### Claim C9

/-- C9: once download, clean and summarize have succeeded, `main` exits
with code 0 regardless of the outcome of the model-release step or the
optional transcript deletion; and a failing `ollama stop` merely makes
`stop_ollama_model` return `false` (caught, never raised). -/
theorem c9_release_does_not_gate_success :
    (∀ (stopOutcome : CmdOutcome) (deleteFlag removeOk : Bool),
      main_exit_full true true true stopOutcome deleteFlag removeOk = 0) ∧
    (∀ r : ProcResult, r.returncode ≠ 0 →
      stop_ollama_model (.completed r) = false) := by
  constructor
  · intro stopOutcome deleteFlag removeOk
    simp [main_exit_full]
  · intro r h
    simp [stop_ollama_model, run_command, h]

/-- C9 witness: exit code 0 with a concretely failing release step. -/
theorem c9_release_does_not_gate_success_witness :
    main_exit_full true true true (.completed ⟨1, "", "stop failed"⟩) true false = 0 ∧
    stop_ollama_model (.completed ⟨1, "", "stop failed"⟩) = false :=
  ⟨c9_release_does_not_gate_success.1 (.completed ⟨1, "", "stop failed"⟩) true false,
    c9_release_does_not_gate_success.2 ⟨1, "", "stop failed"⟩ (by decide)⟩

